import Mathlib

/-!
Verification of the portfolio ledger of `openfx-ui/server.js`.

The ledger arithmetic (weighted-average cost basis on buy, realized P&L on
sell, revaluation totals) is embedded over `ℚ`; `Number(x.toFixed(n))` is
modelled as exact fixed-point rounding to `n` decimal places.  The quote
source is modelled as an `Option ℚ` (`none` = fetch failure or a
non-finite / non-positive provider price, as filtered by `fetchQuote`).
Holdings are the `holdings` array of a portfolio document, in order.
-/

unseal Rat.add Rat.mul Rat.inv Rat.sub

namespace OpenFX

instance {ε α : Type} [DecidableEq ε] [DecidableEq α] : DecidableEq (Except ε α) := fun a b =>
  match a, b with
  | .ok x, .ok y => decidable_of_iff (x = y) (by simp)
  | .error x, .error y => decidable_of_iff (x = y) (by simp)
  | .ok _, .error _ => .isFalse (by simp)
  | .error _, .ok _ => .isFalse (by simp)

/-- Fixed-point rounding to `n` decimal places, the model of
`Number(x.toFixed(n))` (ties round up). -/
def roundTo (n : ℕ) (x : ℚ) : ℚ := ((⌊x * (10 : ℚ) ^ n + 1 / 2⌋ : ℤ) : ℚ) / (10 : ℚ) ^ n

/-- Model of `Number(x.toFixed(2))`. -/
def round2 (x : ℚ) : ℚ := roundTo 2 x

/-- Model of `Number(x.toFixed(4))`. -/
def round4 (x : ℚ) : ℚ := roundTo 4 x

/-- One element of a portfolio's `holdings` array (`holdingSchema` in
`server.js`): symbol, quantity, average cost `buyPrice`, last observed
`currentPrice`, and the `addedAt` timestamp (modelled as a natural). -/
structure Holding where
  symbol : String
  quantity : ℚ
  buyPrice : ℚ
  currentPrice : ℚ
  addedAt : ℕ
deriving DecidableEq, Repr

/-- Model of `fetchQuote` (the variant of `server.js` that returns `null`
on failure): `raw` is the parsed `Number(quote?.c)` from the provider, or
`none` when the fetch / parse threw or `c` was not a number.  The function
passes the price through only when it is positive (the
`Number.isFinite(price) && price > 0` filter; every `ℚ` is finite), and
yields `none` otherwise. -/
def fetchQuote (raw : Option ℚ) : Option ℚ :=
  match raw with
  | some c => if 0 < c then some c else none
  | none => none

/-- Error outcomes of the `/portfolio/buy` and `/portfolio/sell` handlers.
`validationError` is the Joi `quantity: positive` rejection;
`exceedsHolding` carries the `holdingQuantity` reported in the
`sell quantity exceeds holding` response; `priceUnavailable` is the
`trade price unavailable` 502. -/
inductive TradeError where
  | validationError
  | priceUnavailable
  | holdingNotFound
  | exceedsHolding (holdingQuantity : ℚ)
deriving DecidableEq, Repr

/-- The in-place update of an existing holding in `/portfolio/buy`:
`newQty = h.quantity + qty`,
`newAvg = ((h.buyPrice * h.quantity) + (tradePrice * qty)) / newQty`,
then `h.quantity = newQty`, `h.buyPrice = Number(newAvg.toFixed(4))`,
`h.currentPrice = tradePrice`. -/
def buyUpdate (tradePrice qty : ℚ) (h : Holding) : Holding :=
  let newQty := h.quantity + qty
  let newAvg := (h.buyPrice * h.quantity + tradePrice * qty) / newQty
  { h with quantity := newQty, buyPrice := round4 newAvg, currentPrice := tradePrice }

/-- The holdings-array mutation of `/portfolio/buy`: `findIndex` on the
symbol; on a miss, `push` a fresh holding with `buyPrice = currentPrice =
tradePrice` and `addedAt = now`; on a hit, apply `buyUpdate` to the first
matching element. -/
def buyHoldings (symbol : String) (qty tradePrice : ℚ) (now : ℕ) :
    List Holding → List Holding
  | [] => [⟨symbol, qty, tradePrice, tradePrice, now⟩]
  | h :: t =>
    if h.symbol = symbol then buyUpdate tradePrice qty h :: t
    else h :: buyHoldings symbol qty tradePrice now t

/-- The `/portfolio/buy` handler on one portfolio's holdings: Joi rejects a
non-positive quantity, a `none` quote fails the `Number.isFinite` check
with `trade price unavailable`, otherwise the holdings are updated. -/
def buyOp (hs : List Holding) (symbol : String) (qty : ℚ) (quote : Option ℚ)
    (now : ℕ) : Except TradeError (List Holding) :=
  if qty ≤ 0 then .error .validationError
  else
    match quote with
    | none => .error .priceUnavailable
    | some tradePrice => .ok (buyHoldings symbol qty tradePrice now hs)

/-- The holdings-array part of `/portfolio/sell`: `findIndex` on the symbol
(`holding not found` on a miss); `qty > h.quantity` is rejected reporting
`h.quantity`; then the quote is fetched (`trade price unavailable` when
`none`); `realizedPnl = Number((proceeds - costBasis).toFixed(2))`; selling
the exact quantity splices the holding out, selling less decrements
`quantity` and sets `currentPrice = tradePrice`. -/
def sellHoldings (symbol : String) (qty : ℚ) (quote : Option ℚ) :
    List Holding → Except TradeError (List Holding × ℚ)
  | [] => .error .holdingNotFound
  | h :: t =>
    if h.symbol = symbol then
      if h.quantity < qty then .error (.exceedsHolding h.quantity)
      else
        match quote with
        | none => .error .priceUnavailable
        | some tradePrice =>
          let costBasis := h.buyPrice * qty
          let proceeds := tradePrice * qty
          let realizedPnl := round2 (proceeds - costBasis)
          if qty = h.quantity then .ok (t, realizedPnl)
          else .ok ({ h with quantity := h.quantity - qty, currentPrice := tradePrice } :: t,
                    realizedPnl)
    else (sellHoldings symbol qty quote t).map fun r => (h :: r.1, r.2)

/-- The `/portfolio/sell` handler on one portfolio's holdings, including the
Joi positive-quantity validation. -/
def sellOp (hs : List Holding) (symbol : String) (qty : ℚ) (quote : Option ℚ) :
    Except TradeError (List Holding × ℚ) :=
  if qty ≤ 0 then .error .validationError
  else sellHoldings symbol qty quote hs

/-- The per-holding refresh of `/portfolio/all`: the deduped quote for the
holding's symbol is applied to `currentPrice` only when it is a (finite)
positive number, else the prior value is retained. -/
def revalueHolding (quotes : String → Option ℚ) (h : Holding) : Holding :=
  match quotes h.symbol with
  | some q => if 0 < q then { h with currentPrice := q } else h
  | none => h

/-- The holdings refresh loop of `/portfolio/all`. -/
def revalueHoldings (quotes : String → Option ℚ) (hs : List Holding) : List Holding :=
  hs.map (revalueHolding quotes)

/-- `totalInvested = p.holdings.reduce((s, h) => s + h.buyPrice * h.quantity, 0)`. -/
def totalInvested (hs : List Holding) : ℚ :=
  hs.foldl (fun s h => s + h.buyPrice * h.quantity) 0

/-- `totalCurrent = p.holdings.reduce((s, h) => s + h.currentPrice * h.quantity, 0)`. -/
def totalCurrent (hs : List Holding) : ℚ :=
  hs.foldl (fun s h => s + h.currentPrice * h.quantity) 0

/-- `pnl = Number((totalCurrent - totalInvested).toFixed(2))`. -/
def pnl (hs : List Holding) : ℚ := round2 (totalCurrent hs - totalInvested hs)

/-- `pnlPercent = totalInvested > 0 ? Number(((pnl / totalInvested) * 100).toFixed(2)) : null`. -/
def pnlPercent (hs : List Holding) : Option ℚ :=
  if 0 < totalInvested hs then some (round2 (pnl hs / totalInvested hs * 100)) else none

/-- One element of the `holdings` array serialized by `/portfolio/all`. -/
structure HoldingView where
  symbol : String
  quantity : ℚ
  buyPrice : ℚ
  currentPrice : ℚ
  gain : ℚ
  gainPercent : Option ℚ
  addedAt : ℕ
deriving DecidableEq, Repr

/-- The response mapping of `/portfolio/all`: `gain = currentPrice - buyPrice`
rounded to 2 decimals, `gainPercent = round2(gain / buyPrice * 100)` when
`buyPrice > 0`, else `null` (the percentage uses the unrounded gain, as in
the source). -/
def holdingView (h : Holding) : HoldingView :=
  let gain := h.currentPrice - h.buyPrice
  { symbol := h.symbol, quantity := h.quantity, buyPrice := h.buyPrice,
    currentPrice := h.currentPrice, gain := round2 gain,
    gainPercent := if 0 < h.buyPrice then some (round2 (gain / h.buyPrice * 100)) else none,
    addedAt := h.addedAt }

/-- First holding for a symbol, the `findIndex`-designated element. -/
def findHolding (symbol : String) : List Holding → Option Holding
  | [] => none
  | h :: t => if h.symbol = symbol then some h else findHolding symbol t

/-- Model of the JavaScript `String.prototype.trim()` (drop leading and
trailing whitespace). -/
def trimStr (s : String) : String :=
  ⟨((s.data.dropWhile Char.isWhitespace).reverse.dropWhile Char.isWhitespace).reverse⟩

/-- Model of the JavaScript `String.prototype.toUpperCase()` on the symbols
the server handles (character-wise uppercase). -/
def upperStr (s : String) : String := ⟨s.data.map Char.toUpper⟩

/-- Routing outcome of `GET /stocks/quote`. -/
inductive QuoteRoute where
  | missingSymbol
  | blocked
  | forwarded (symbol : String)
deriving DecidableEq, Repr

/-- The symbol handling of `GET /stocks/quote`: trim and uppercase the raw
query value; an empty result is a 400 `missing symbol parameter`; `AAPL` is
blocked with a 404 `quote unavailable for symbol` before any provider call;
anything else is forwarded to the provider. -/
def stocksQuoteRoute (raw : String) : QuoteRoute :=
  let symbol := upperStr (trimStr raw)
  if symbol = "" then .missingSymbol
  else if symbol = "AAPL" then .blocked
  else .forwarded symbol

/-- Portfolio holdings states reachable from a fresh (empty) portfolio by
validated buys and sells that went through (`.ok` results). -/
inductive Reachable : List Holding → Prop where
  | empty : Reachable []
  | buy (hs hs' : List Holding) (s : String) (q : ℚ) (quote : Option ℚ) (now : ℕ) :
      Reachable hs → buyOp hs s q quote now = .ok hs' → Reachable hs'
  | sell (hs hs' : List Holding) (s : String) (q : ℚ) (quote : Option ℚ) (r : ℚ) :
      Reachable hs → sellOp hs s q quote = .ok (hs', r) → Reachable hs'

/-- The holdings-collection invariant: strictly positive quantities and at
most one holding per symbol. -/
def WellFormed (hs : List Holding) : Prop :=
  (∀ h ∈ hs, 0 < h.quantity) ∧ (hs.map Holding.symbol).Nodup

lemma buyOp_pos (hs : List Holding) (s : String) (q px : ℚ) (now : ℕ) (hq : 0 < q) :
    buyOp hs s q (some px) now = .ok (buyHoldings s q px now hs) := by
  simp [buyOp, not_le.mpr hq]

lemma buyUpdate_eq (px q : ℚ) (h : Holding) :
    buyUpdate px q h =
      ⟨h.symbol, h.quantity + q,
        round4 ((h.buyPrice * h.quantity + px * q) / (h.quantity + q)), px, h.addedAt⟩ := rfl

lemma findHolding_buyHoldings_none (s : String) (q px : ℚ) (now : ℕ) (hs : List Holding)
    (h0 : findHolding s hs = none) :
    findHolding s (buyHoldings s q px now hs) = some ⟨s, q, px, px, now⟩ := by
  induction hs with
  | nil => simp [findHolding, buyHoldings]
  | cons g t ih =>
    by_cases hg : g.symbol = s
    · simp [findHolding, hg] at h0
    · simp only [findHolding, if_neg hg] at h0
      simpa [buyHoldings, if_neg hg, findHolding] using ih h0

lemma findHolding_buyHoldings_some (s : String) (q px : ℚ) (now : ℕ) (hs : List Holding)
    (h : Holding) (h0 : findHolding s hs = some h) :
    findHolding s (buyHoldings s q px now hs) = some (buyUpdate px q h) := by
  induction hs with
  | nil => simp [findHolding] at h0
  | cons g t ih =>
    by_cases hg : g.symbol = s
    · simp only [findHolding, if_pos hg, Option.some.injEq] at h0
      subst h0
      simp [buyHoldings, if_pos hg, findHolding, buyUpdate, hg]
    · simp only [findHolding, if_neg hg] at h0
      simpa [buyHoldings, if_neg hg, findHolding] using ih h0

/-- C1: a validated buy succeeds; on a fresh symbol it pushes a holding with
the given quantity and `buyPrice = currentPrice = tradePrice`; on an
existing holding it sets `quantity = oldQty + qty`,
`buyPrice = round4((oldAvg * oldQty + tradePrice * qty) / (oldQty + qty))`
and `currentPrice = tradePrice`. -/
theorem C1_buy_cost_basis (hs : List Holding) (s : String) (q px : ℚ) (now : ℕ)
    (hq : 0 < q) :
    buyOp hs s q (some px) now = .ok (buyHoldings s q px now hs) ∧
    (findHolding s hs = none →
      findHolding s (buyHoldings s q px now hs) = some ⟨s, q, px, px, now⟩) ∧
    (∀ h, findHolding s hs = some h →
      findHolding s (buyHoldings s q px now hs) =
        some ⟨h.symbol, h.quantity + q,
          round4 ((h.buyPrice * h.quantity + px * q) / (h.quantity + q)), px, h.addedAt⟩) := by
  refine ⟨buyOp_pos hs s q px now hq, ?_, ?_⟩
  · exact findHolding_buyHoldings_none s q px now hs
  · intro h h0
    rw [findHolding_buyHoldings_some s q px now hs h h0, buyUpdate_eq]

/-- C1 witness: an existing `X` holding of 10 @ 100 bought up by 10 @ 200
yields 20 @ 150 with `currentPrice = 200`. -/
theorem C1_buy_cost_basis_wit :
    findHolding "X" (buyHoldings "X" 10 200 1 [⟨"X", 10, 100, 100, 0⟩]) =
      some ⟨"X", 10 + 10, round4 ((100 * 10 + 200 * 10) / (10 + 10)), 200, 0⟩ :=
  (C1_buy_cost_basis [⟨"X", 10, 100, 100, 0⟩] "X" 10 200 1 (by decide)).2.2
    ⟨"X", 10, 100, 100, 0⟩ (by decide)

lemma sellOp_pos (hs : List Holding) (s : String) (q : ℚ) (quote : Option ℚ) (hq : 0 < q) :
    sellOp hs s q quote = sellHoldings s q quote hs := by
  simp [sellOp, not_le.mpr hq]

lemma sellHoldings_append (s : String) (q : ℚ) (quote : Option ℚ)
    (pre post : List Holding) (h : Holding)
    (hmem : ∀ g ∈ pre, g.symbol ≠ s) (hsym : h.symbol = s) :
    sellHoldings s q quote (pre ++ h :: post) =
      if h.quantity < q then .error (.exceedsHolding h.quantity)
      else
        match quote with
        | none => .error .priceUnavailable
        | some px =>
          if q = h.quantity then .ok (pre ++ post, round2 (px * q - h.buyPrice * q))
          else .ok (pre ++ { h with quantity := h.quantity - q, currentPrice := px } :: post,
                    round2 (px * q - h.buyPrice * q)) := by
  induction pre with
  | nil =>
    simp only [List.nil_append, sellHoldings, if_pos hsym]
  | cons g pre ih =>
    have hg : g.symbol ≠ s := hmem g (List.mem_cons_self g pre)
    have hmem' : ∀ x ∈ pre, x.symbol ≠ s := fun x hx => hmem x (List.mem_cons_of_mem g hx)
    have step : sellHoldings s q quote ((g :: pre) ++ h :: post) =
        (sellHoldings s q quote (pre ++ h :: post)).map fun r => (g :: r.1, r.2) := by
      simp only [List.cons_append, sellHoldings, if_neg hg]
      rfl
    rw [step, ih hmem']
    by_cases h1 : h.quantity < q
    · rw [if_pos h1, if_pos h1]; rfl
    · rw [if_neg h1, if_neg h1]
      cases quote with
      | none => rfl
      | some px =>
        by_cases h2 : q = h.quantity
        · simp [h2, Except.map]
        · simp [h2, Except.map]

/-- C2: on the first holding for the symbol, selling the exact quantity
removes it, selling strictly less decrements the quantity keeping
`buyPrice`, and selling more is rejected with an `exceedsHolding` error
that reports the held quantity, leaving the holdings unchanged (an error
response carries no mutated state). -/
theorem C2_sell_cases (pre post : List Holding) (h : Holding) (s : String) (q px : ℚ)
    (hq : 0 < q) (hmem : ∀ g ∈ pre, g.symbol ≠ s) (hsym : h.symbol = s) :
    (q = h.quantity →
      sellOp (pre ++ h :: post) s q (some px) =
        .ok (pre ++ post, round2 (px * q - h.buyPrice * q))) ∧
    (q < h.quantity →
      sellOp (pre ++ h :: post) s q (some px) =
        .ok (pre ++ { h with quantity := h.quantity - q, currentPrice := px } :: post,
             round2 (px * q - h.buyPrice * q))) ∧
    (h.quantity < q →
      sellOp (pre ++ h :: post) s q (some px) = .error (.exceedsHolding h.quantity)) := by
  rw [sellOp_pos _ _ _ _ hq, sellHoldings_append s q (some px) pre post h hmem hsym]
  refine ⟨fun he => ?_, fun hlt => ?_, fun hgt => ?_⟩
  · rw [if_neg (by rw [he]; exact lt_irrefl _)]
    simp [he]
  · rw [if_neg (not_lt.mpr hlt.le)]
    simp [ne_of_lt hlt]
  · rw [if_pos hgt]

/-- C2 witness: selling the exact 20 held removes the holding; selling 25
from 20 held is rejected reporting 20. -/
theorem C2_sell_cases_wit :
    sellOp [⟨"X", 20, 150, 200, 0⟩] "X" 20 (some 180) =
      .ok ([], round2 (180 * 20 - 150 * 20)) ∧
    sellOp [⟨"X", 20, 150, 200, 0⟩] "X" 25 (some 180) =
      .error (.exceedsHolding 20) :=
  ⟨(C2_sell_cases [] [] ⟨"X", 20, 150, 200, 0⟩ "X" 20 180 (by decide)
      (by intro g hg; cases hg) (by decide)).1 (by decide),
   (C2_sell_cases [] [] ⟨"X", 20, 150, 200, 0⟩ "X" 25 180 (by decide)
      (by intro g hg; cases hg) (by decide)).2.2 (by decide)⟩

/-- C3: a sell of quantity `q` against the first holding for the symbol at
trade price `px` returns `realizedPnl = round2((px - buyPrice) * q)`
(computed in the source as `round2(proceeds - costBasis)`), and a partial
sell keeps the holding's `buyPrice` unchanged. -/
theorem C3_realized_pnl (pre post : List Holding) (h : Holding) (s : String) (q px : ℚ)
    (hq : 0 < q) (hmem : ∀ g ∈ pre, g.symbol ≠ s) (hsym : h.symbol = s)
    (hle : q ≤ h.quantity) :
    ∃ hs', sellOp (pre ++ h :: post) s q (some px) =
        .ok (hs', round2 ((px - h.buyPrice) * q)) ∧
      ((q = h.quantity ∧ hs' = pre ++ post) ∨
       (q < h.quantity ∧
        hs' = pre ++ { h with quantity := h.quantity - q, currentPrice := px } :: post)) := by
  have hr : round2 ((px - h.buyPrice) * q) = round2 (px * q - h.buyPrice * q) := by
    rw [sub_mul]
  rcases lt_or_eq_of_le hle with hlt | he
  · exact ⟨pre ++ { h with quantity := h.quantity - q, currentPrice := px } :: post,
      by rw [hr]; exact (C2_sell_cases pre post h s q px hq hmem hsym).2.1 hlt,
      Or.inr ⟨hlt, rfl⟩⟩
  · exact ⟨pre ++ post,
      by rw [hr]; exact (C2_sell_cases pre post h s q px hq hmem hsym).1 he,
      Or.inl ⟨he, rfl⟩⟩

/-- C3 witness: selling 5 of 20 @ 150 at trade price 180 realizes
`round2((180 - 150) * 5) = 150` and keeps `buyPrice = 150`. -/
theorem C3_realized_pnl_wit :
    ∃ hs', sellOp [⟨"X", 20, 150, 200, 0⟩] "X" 5 (some 180) =
        .ok (hs', round2 ((180 - 150) * 5)) ∧
      ((5 = (20 : ℚ) ∧ hs' = [] ++ []) ∨
       ((5 : ℚ) < 20 ∧ hs' = [] ++ ⟨"X", 20 - 5, 150, 180, 0⟩ :: [])) :=
  C3_realized_pnl [] [] ⟨"X", 20, 150, 200, 0⟩ "X" 5 180 (by decide)
    (by intro g hg; cases hg) (by decide) (by decide)

/-- C4: when the quote source yields no finite positive price
(`fetchQuote = none`), a validated buy and a sell that passed its holding
and quantity checks both fail with the `priceUnavailable` error (no state
is returned on an error), and `fetchQuote` never passes a non-positive
price through. -/
theorem C4_price_unavailable (hs pre post : List Holding) (h : Holding) (s : String)
    (q : ℚ) (now : ℕ) (raw : Option ℚ)
    (hq : 0 < q) (hfail : fetchQuote raw = none)
    (hmem : ∀ g ∈ pre, g.symbol ≠ s) (hsym : h.symbol = s) (hle : q ≤ h.quantity) :
    buyOp hs s q (fetchQuote raw) now = .error .priceUnavailable ∧
    sellOp (pre ++ h :: post) s q (fetchQuote raw) = .error .priceUnavailable ∧
    (∀ (raw2 : Option ℚ) (px : ℚ), fetchQuote raw2 = some px → 0 < px) := by
  refine ⟨?_, ?_, ?_⟩
  · rw [hfail]; simp [buyOp, not_le.mpr hq]
  · rw [hfail, sellOp_pos _ _ _ _ hq,
      sellHoldings_append s q none pre post h hmem hsym, if_neg (not_lt.mpr hle)]
  · intro raw2 px hpx
    cases raw2 with
    | none => simp [fetchQuote] at hpx
    | some c =>
      by_cases hc : 0 < c
      · simp only [fetchQuote, if_pos hc, Option.some.injEq] at hpx
        exact hpx ▸ hc
      · simp [fetchQuote, hc] at hpx

/-- C4 witness: a provider response of `0` is filtered to `none` and both
trade operations abort with `priceUnavailable`. -/
theorem C4_price_unavailable_wit :
    buyOp [⟨"X", 20, 150, 200, 0⟩] "X" 5 (fetchQuote (some 0)) 3 =
      .error .priceUnavailable ∧
    sellOp [⟨"X", 20, 150, 200, 0⟩] "X" 5 (fetchQuote (some 0)) =
      .error .priceUnavailable :=
  ⟨(C4_price_unavailable [⟨"X", 20, 150, 200, 0⟩] [] [] ⟨"X", 20, 150, 200, 0⟩ "X" 5 3
      (some 0) (by decide) (by decide) (by intro g hg; cases hg) (by decide) (by decide)).1,
   (C4_price_unavailable [⟨"X", 20, 150, 200, 0⟩] [] [] ⟨"X", 20, 150, 200, 0⟩ "X" 5 3
      (some 0) (by decide) (by decide) (by intro g hg; cases hg) (by decide) (by decide)).2.1⟩

/-- C5 counterexample: three buys of `X` — 1 @ 0.0001, 1 @ 0.00008,
2 @ 0.0002 — leave `buyPrice = 0.0002`, while the quantity-weighted
average of all three trade prices (0.000145) rounds to `0.0001`: the
intermediate 4-decimal rounding of the second buy propagates into the
third recompute. -/
theorem C5_counterexample :
    ((buyOp [] "X" 1 (some (1/10000)) 0).bind fun hs1 =>
      (buyOp hs1 "X" 1 (some (8/100000)) 1).bind fun hs2 =>
        buyOp hs2 "X" 2 (some (2/10000)) 2).map
        (fun hs => (findHolding "X" hs).map Holding.buyPrice) ≠
      .ok (some (round4 ((1/10000 * 1 + 8/100000 * 1 + 2/10000 * 2) / (1 + 1 + 2)))) := by
  decide

/-- C5 amended: the average is recomputed from the previously *rounded*
`buyPrice`, so only sequences whose intermediate averages survive the
4-decimal rounding exactly reproduce the all-trades weighted average; for
a split into two increments this always holds: buying `q1 @ p1` then
`q2 @ p2` from scratch yields
`buyPrice = round4((p1*q1 + p2*q2) / (q1 + q2))`. -/
theorem C5_two_buy_average (s : String) (q1 q2 p1 p2 : ℚ) (n1 n2 : ℕ)
    (h1 : 0 < q1) (h2 : 0 < q2) :
    (buyOp [] s q1 (some p1) n1).bind (fun hs1 => buyOp hs1 s q2 (some p2) n2) =
      .ok [⟨s, q1 + q2, round4 ((p1 * q1 + p2 * q2) / (q1 + q2)), p2, n1⟩] := by
  have e1 : buyOp [] s q1 (some p1) n1 = .ok [⟨s, q1, p1, p1, n1⟩] := by
    rw [buyOp_pos [] s q1 p1 n1 h1]; rfl
  rw [e1]
  show buyOp [⟨s, q1, p1, p1, n1⟩] s q2 (some p2) n2 = _
  rw [buyOp_pos _ s q2 p2 n2 h2]
  simp [buyHoldings, buyUpdate]

/-- C5 witness: buying 10 @ 100 then 10 @ 200 yields
`round4(3000 / 20) = 150`. -/
theorem C5_two_buy_average_wit :
    (buyOp [] "X" 10 (some 100) 0).bind (fun hs1 => buyOp hs1 "X" 10 (some 200) 1) =
      .ok [⟨"X", 10 + 10, round4 ((100 * 10 + 200 * 10) / (10 + 10)), 200, 0⟩] :=
  C5_two_buy_average "X" 10 10 100 200 0 1 (by decide) (by decide)

lemma mem_map_symbol_buyHoldings (s x : String) (q px : ℚ) (now : ℕ) (hs : List Holding)
    (hx : x ∈ (buyHoldings s q px now hs).map Holding.symbol) :
    x = s ∨ x ∈ hs.map Holding.symbol := by
  induction hs with
  | nil =>
    simp [buyHoldings] at hx
    exact Or.inl hx
  | cons g t ih =>
    by_cases hg : g.symbol = s
    · simp only [buyHoldings, if_pos hg, List.map_cons, List.mem_cons] at hx
      rcases hx with hx | hx
      · exact Or.inr (by simp [buyUpdate] at hx; simp [hx])
      · exact Or.inr (by simp [hx])
    · simp only [buyHoldings, if_neg hg, List.map_cons, List.mem_cons] at hx
      rcases hx with hx | hx
      · exact Or.inr (by simp [hx])
      · rcases ih hx with hx' | hx'
        · exact Or.inl hx'
        · exact Or.inr (by simp [hx'])

lemma wf_buyHoldings (s : String) (q px : ℚ) (now : ℕ) (hs : List Holding)
    (hq : 0 < q) (hwf : WellFormed hs) : WellFormed (buyHoldings s q px now hs) := by
  induction hs with
  | nil =>
    refine ⟨fun h hm => ?_, by simp [buyHoldings]⟩
    simp [buyHoldings] at hm
    simp [hm, hq]
  | cons g t ih =>
    obtain ⟨hpos, hnd⟩ := hwf
    have hposg : 0 < g.quantity := hpos g (List.mem_cons_self g t)
    have hpost : ∀ h ∈ t, 0 < h.quantity := fun h hm => hpos h (List.mem_cons_of_mem g hm)
    obtain ⟨hhead, htail⟩ := List.nodup_cons.mp (by simpa only [List.map_cons] using hnd)
    by_cases hg : g.symbol = s
    · refine ⟨fun h hm => ?_, ?_⟩
      · simp only [buyHoldings, if_pos hg, List.mem_cons] at hm
        rcases hm with hm | hm
        · simp [hm, buyUpdate]
          exact add_pos hposg hq
        · exact hpost h hm
      · simp only [buyHoldings, if_pos hg, List.map_cons]
        refine List.nodup_cons.mpr ⟨?_, htail⟩
        simpa [buyUpdate] using hhead
    · obtain ⟨ihpos, ihnd⟩ := ih ⟨hpost, htail⟩
      refine ⟨fun h hm => ?_, ?_⟩
      · simp only [buyHoldings, if_neg hg, List.mem_cons] at hm
        rcases hm with hm | hm
        · simp [hm, hposg]
        · exact ihpos h hm
      · simp only [buyHoldings, if_neg hg, List.map_cons]
        refine List.nodup_cons.mpr ⟨fun hc => ?_, ihnd⟩
        rcases mem_map_symbol_buyHoldings s g.symbol q px now t hc with hc' | hc'
        · exact hg hc'
        · exact hhead hc'

lemma sellHoldings_ok_sublist (s : String) (q : ℚ) (quote : Option ℚ)
    (hs hs' : List Holding) (r : ℚ)
    (he : sellHoldings s q quote hs = .ok (hs', r)) :
    (hs'.map Holding.symbol).Sublist (hs.map Holding.symbol) := by
  induction hs generalizing hs' r with
  | nil => simp [sellHoldings] at he
  | cons g t ih =>
    by_cases hg : g.symbol = s
    · simp only [sellHoldings, if_pos hg] at he
      by_cases h1 : g.quantity < q
      · rw [if_pos h1] at he; simp at he
      · rw [if_neg h1] at he
        cases quote with
        | none => simp at he
        | some px =>
          by_cases h2 : q = g.quantity
          · simp only [if_pos h2, Except.ok.injEq, Prod.mk.injEq] at he
            rw [← he.1]
            exact (List.sublist_cons_self g.symbol (t.map Holding.symbol))
          · simp only [if_neg h2, Except.ok.injEq, Prod.mk.injEq] at he
            rw [← he.1]
            simp
    · simp only [sellHoldings, if_neg hg] at he
      cases hrec : sellHoldings s q quote t with
      | error e => rw [hrec] at he; simp [Except.map] at he
      | ok v =>
        rw [hrec] at he
        simp only [Except.map, Except.ok.injEq, Prod.mk.injEq] at he
        rw [← he.1]
        simpa using List.Sublist.cons₂ g.symbol (ih v.1 v.2 (by rw [hrec]))

lemma sellHoldings_ok_pos (s : String) (q : ℚ) (quote : Option ℚ)
    (hs hs' : List Holding) (r : ℚ)
    (hpos : ∀ g ∈ hs, 0 < g.quantity)
    (he : sellHoldings s q quote hs = .ok (hs', r)) :
    ∀ g ∈ hs', 0 < g.quantity := by
  induction hs generalizing hs' r with
  | nil => simp [sellHoldings] at he
  | cons g t ih =>
    have hposg : 0 < g.quantity := hpos g (List.mem_cons_self g t)
    have hpost : ∀ h ∈ t, 0 < h.quantity := fun h hm => hpos h (List.mem_cons_of_mem g hm)
    by_cases hg : g.symbol = s
    · simp only [sellHoldings, if_pos hg] at he
      by_cases h1 : g.quantity < q
      · rw [if_pos h1] at he; simp at he
      · rw [if_neg h1] at he
        cases quote with
        | none => simp at he
        | some px =>
          by_cases h2 : q = g.quantity
          · simp only [if_pos h2, Except.ok.injEq, Prod.mk.injEq] at he
            rw [← he.1]; exact hpost
          · simp only [if_neg h2, Except.ok.injEq, Prod.mk.injEq] at he
            rw [← he.1]
            intro x hx
            rcases List.mem_cons.mp hx with hx' | hx'
            · have hlt : q < g.quantity := lt_of_le_of_ne (not_lt.mp h1) h2
              simp [hx', sub_pos.mpr hlt]
            · exact hpost x hx'
    · simp only [sellHoldings, if_neg hg] at he
      cases hrec : sellHoldings s q quote t with
      | error e => rw [hrec] at he; simp [Except.map] at he
      | ok v =>
        rw [hrec] at he
        simp only [Except.map, Except.ok.injEq, Prod.mk.injEq] at he
        rw [← he.1]
        intro x hx
        rcases List.mem_cons.mp hx with hx' | hx'
        · simp [hx', hposg]
        · exact ih v.1 v.2 hpost (by rw [hrec]) x hx'

/-- C6: every holdings state reachable from an empty portfolio through
validated buys and sells has strictly positive quantities throughout (a
fully liquidated holding is spliced out, never kept at zero) and at most
one holding per symbol. -/
theorem C6_reachable_invariant (hs : List Holding) (hr : Reachable hs) : WellFormed hs := by
  induction hr with
  | empty => exact ⟨fun h hm => absurd hm (List.not_mem_nil h), List.nodup_nil⟩
  | buy hs0 hs' s q quote now _ heq ihwf =>
    unfold buyOp at heq
    by_cases hq : q ≤ 0
    · rw [if_pos hq] at heq; simp at heq
    · rw [if_neg hq] at heq
      cases quote with
      | none => simp at heq
      | some px =>
        simp only [Except.ok.injEq] at heq
        rw [← heq]
        exact wf_buyHoldings s q px now hs0 (not_le.mp hq) ihwf
  | sell hs0 hs' s q quote r _ heq ihwf =>
    unfold sellOp at heq
    by_cases hq : q ≤ 0
    · rw [if_pos hq] at heq; simp at heq
    · rw [if_neg hq] at heq
      obtain ⟨hpos, hnd⟩ := ihwf
      exact ⟨sellHoldings_ok_pos s q quote hs0 hs' r hpos heq,
        List.Nodup.sublist (sellHoldings_ok_sublist s q quote hs0 hs' r heq) hnd⟩

/-- C6 witness: the state after one validated buy on a fresh portfolio is
well-formed. -/
theorem C6_reachable_invariant_wit : WellFormed [⟨"X", 10, 100, 100, 0⟩] :=
  C6_reachable_invariant [⟨"X", 10, 100, 100, 0⟩]
    (Reachable.buy [] [⟨"X", 10, 100, 100, 0⟩] "X" 10 (some 100) 0
      Reachable.empty (by decide))

lemma revalueHolding_fields (quotes : String → Option ℚ) (h : Holding) :
    (revalueHolding quotes h).symbol = h.symbol ∧
    (revalueHolding quotes h).quantity = h.quantity ∧
    (revalueHolding quotes h).buyPrice = h.buyPrice ∧
    (revalueHolding quotes h).addedAt = h.addedAt ∧
    (revalueHolding quotes h).currentPrice =
      (match quotes h.symbol with
       | some q => if 0 < q then q else h.currentPrice
       | none => h.currentPrice) := by
  cases hq : quotes h.symbol with
  | none => simp [revalueHolding, hq]
  | some v =>
    by_cases hv : 0 < v
    · simp [revalueHolding, hq, hv]
    · simp [revalueHolding, hq, hv]

/-- C7: a revaluation maps each holding in place — the length is
preserved (no holding removed) and position `i` carries the refreshed
holding — keeping `symbol`, `quantity`, `buyPrice` and `addedAt`, and
updating `currentPrice` to the fetched quote exactly when it is a finite
positive number, retaining the prior value otherwise. -/
theorem C7_revalue_refresh (quotes : String → Option ℚ) (hs : List Holding) (i : ℕ)
    (h : Holding) (hi : hs[i]? = some h) :
    (revalueHoldings quotes hs).length = hs.length ∧
    (revalueHoldings quotes hs)[i]? = some (revalueHolding quotes h) ∧
    (revalueHolding quotes h).symbol = h.symbol ∧
    (revalueHolding quotes h).quantity = h.quantity ∧
    (revalueHolding quotes h).buyPrice = h.buyPrice ∧
    (revalueHolding quotes h).addedAt = h.addedAt ∧
    (revalueHolding quotes h).currentPrice =
      (match quotes h.symbol with
       | some q => if 0 < q then q else h.currentPrice
       | none => h.currentPrice) := by
  obtain ⟨f1, f2, f3, f4, f5⟩ := revalueHolding_fields quotes h
  refine ⟨by simp [revalueHoldings], ?_, f1, f2, f3, f4, f5⟩
  rw [revalueHoldings, List.getElem?_map, hi, Option.map_some']

/-- C7 witness: with `A` quoted at 300 and the quote for `B` failing, the
`B` holding keeps `currentPrice = 60` while nothing else about it changes
and the collection keeps both holdings. -/
theorem C7_revalue_refresh_wit :
    (revalueHoldings (fun s => if s = "A" then some 300 else none)
        [⟨"A", 1, 100, 110, 0⟩, ⟨"B", 2, 50, 60, 0⟩]).length =
      [(⟨"A", 1, 100, 110, 0⟩ : Holding), ⟨"B", 2, 50, 60, 0⟩].length ∧
    (revalueHoldings (fun s => if s = "A" then some 300 else none)
        [⟨"A", 1, 100, 110, 0⟩, ⟨"B", 2, 50, 60, 0⟩])[1]? =
      some (revalueHolding (fun s => if s = "A" then some 300 else none) ⟨"B", 2, 50, 60, 0⟩) ∧
    (revalueHolding (fun s => if s = "A" then some 300 else none) ⟨"B", 2, 50, 60, 0⟩).symbol =
      "B" ∧
    (revalueHolding (fun s => if s = "A" then some 300 else none) ⟨"B", 2, 50, 60, 0⟩).quantity =
      2 ∧
    (revalueHolding (fun s => if s = "A" then some 300 else none) ⟨"B", 2, 50, 60, 0⟩).buyPrice =
      50 ∧
    (revalueHolding (fun s => if s = "A" then some 300 else none) ⟨"B", 2, 50, 60, 0⟩).addedAt =
      0 ∧
    (revalueHolding (fun s => if s = "A" then some 300 else none) ⟨"B", 2, 50, 60, 0⟩).currentPrice =
      (match (if ("B" : String) = "A" then some (300 : ℚ) else none) with
       | some q => if 0 < q then q else (60 : ℚ)
       | none => (60 : ℚ)) :=
  C7_revalue_refresh (fun s => if s = "A" then some 300 else none)
    [⟨"A", 1, 100, 110, 0⟩, ⟨"B", 2, 50, 60, 0⟩] 1 ⟨"B", 2, 50, 60, 0⟩ (by decide)

lemma revalueHolding_idem (quotes : String → Option ℚ) (h : Holding) :
    revalueHolding quotes (revalueHolding quotes h) = revalueHolding quotes h := by
  cases h with
  | mk sy qt bp cp ad =>
    cases hq : quotes sy with
    | none => simp [revalueHolding, hq]
    | some v =>
      by_cases hv : 0 < v
      · simp [revalueHolding, hq, hv]
      · simp [revalueHolding, hq, hv]

lemma revalueHoldings_idem (quotes : String → Option ℚ) (hs : List Holding) :
    revalueHoldings quotes (revalueHoldings quotes hs) = revalueHoldings quotes hs := by
  induction hs with
  | nil => rfl
  | cons h t ih =>
    simp only [revalueHoldings, List.map_cons] at ih ⊢
    rw [revalueHolding_idem quotes h]
    exact congrArg _ ih

/-- C8: under a fixed quote table, revaluing an already revalued
portfolio changes nothing — the holdings, all four totals and the
serialized per-holding views agree with a single revaluation. -/
theorem C8_revalue_idempotent (quotes : String → Option ℚ) (hs : List Holding) :
    revalueHoldings quotes (revalueHoldings quotes hs) = revalueHoldings quotes hs ∧
    totalInvested (revalueHoldings quotes (revalueHoldings quotes hs)) =
      totalInvested (revalueHoldings quotes hs) ∧
    totalCurrent (revalueHoldings quotes (revalueHoldings quotes hs)) =
      totalCurrent (revalueHoldings quotes hs) ∧
    pnl (revalueHoldings quotes (revalueHoldings quotes hs)) =
      pnl (revalueHoldings quotes hs) ∧
    pnlPercent (revalueHoldings quotes (revalueHoldings quotes hs)) =
      pnlPercent (revalueHoldings quotes hs) ∧
    (revalueHoldings quotes (revalueHoldings quotes hs)).map holdingView =
      (revalueHoldings quotes hs).map holdingView := by
  have h := revalueHoldings_idem quotes hs
  refine ⟨h, ?_, ?_, ?_, ?_, ?_⟩ <;> rw [h]

lemma foldl_add_extract (f : Holding → ℚ) (l : List Holding) (init : ℚ) :
    l.foldl (fun s h => s + f h) init = init + (l.map f).sum := by
  induction l generalizing init with
  | nil => simp
  | cons h t ih =>
    rw [List.foldl_cons, ih]
    simp [add_assoc]

lemma totalInvested_perm (hs1 hs2 : List Holding) (hp : hs1.Perm hs2) :
    totalInvested hs1 = totalInvested hs2 := by
  unfold totalInvested
  rw [foldl_add_extract, foldl_add_extract, (hp.map _).sum_eq]

lemma totalCurrent_perm (hs1 hs2 : List Holding) (hp : hs1.Perm hs2) :
    totalCurrent hs1 = totalCurrent hs2 := by
  unfold totalCurrent
  rw [foldl_add_extract, foldl_add_extract, (hp.map _).sum_eq]

/-- C9: the revaluation aggregates are order-independent — permuting the
holdings leaves `totalInvested`, `totalCurrent`, `pnl` and `pnlPercent`
unchanged. -/
theorem C9_totals_order_independent (hs1 hs2 : List Holding) (hp : hs1.Perm hs2) :
    totalInvested hs1 = totalInvested hs2 ∧ totalCurrent hs1 = totalCurrent hs2 ∧
    pnl hs1 = pnl hs2 ∧ pnlPercent hs1 = pnlPercent hs2 := by
  have h1 := totalInvested_perm hs1 hs2 hp
  have h2 := totalCurrent_perm hs1 hs2 hp
  refine ⟨h1, h2, ?_, ?_⟩ <;> simp [pnl, pnlPercent, h1, h2]

/-- C9 witness: swapping two holdings leaves all four aggregates
unchanged. -/
theorem C9_totals_order_independent_wit :
    totalInvested [⟨"A", 1, 100, 110, 0⟩, ⟨"B", 2, 50, 60, 0⟩] =
      totalInvested [⟨"B", 2, 50, 60, 0⟩, ⟨"A", 1, 100, 110, 0⟩] ∧
    totalCurrent [⟨"A", 1, 100, 110, 0⟩, ⟨"B", 2, 50, 60, 0⟩] =
      totalCurrent [⟨"B", 2, 50, 60, 0⟩, ⟨"A", 1, 100, 110, 0⟩] ∧
    pnl [⟨"A", 1, 100, 110, 0⟩, ⟨"B", 2, 50, 60, 0⟩] =
      pnl [⟨"B", 2, 50, 60, 0⟩, ⟨"A", 1, 100, 110, 0⟩] ∧
    pnlPercent [⟨"A", 1, 100, 110, 0⟩, ⟨"B", 2, 50, 60, 0⟩] =
      pnlPercent [⟨"B", 2, 50, 60, 0⟩, ⟨"A", 1, 100, 110, 0⟩] :=
  C9_totals_order_independent _ _ (by decide)

/-- C10: a quote request whose symbol trims and uppercases to `AAPL` is
answered with the blocked 404 before any provider call, and every other
non-empty normalized symbol is forwarded to the provider. -/
theorem C10_aapl_blocked (raw : String) :
    (upperStr (trimStr raw) = "AAPL" → stocksQuoteRoute raw = .blocked) ∧
    (upperStr (trimStr raw) ≠ "" → upperStr (trimStr raw) ≠ "AAPL" →
      stocksQuoteRoute raw = .forwarded (upperStr (trimStr raw))) := by
  constructor
  · intro h
    simp [stocksQuoteRoute, h]
  · intro h1 h2
    simp [stocksQuoteRoute, h1, h2]

/-- C10 witness: `" aapl "` is blocked; `"msft"` is forwarded as `MSFT`. -/
theorem C10_aapl_blocked_wit :
    stocksQuoteRoute " aapl " = .blocked ∧
    stocksQuoteRoute "msft" = .forwarded (upperStr (trimStr "msft")) :=
  ⟨(C10_aapl_blocked " aapl ").1 (by decide),
   (C10_aapl_blocked "msft").2 (by decide) (by decide)⟩

end OpenFX
